import Mathlib

set_option autoImplicit false

namespace DD

/-!
Verification of the adaptive data-cleaning subsystem of the DD dashboard.

The client code under verification lives in
`src/frontend/src/services/api.js` (SSE stream parser, download helper,
synchronous fallback endpoint) and
`src/frontend/src/pages/DataCleaning.jsx` (run orchestration, step list,
quality-score transformations).  The server-side cleaning engine is not part
of the repository's source; where a property concerns it, the engine is
modelled from the specification and marked as such in the doc comment.
-/

/-! ## Client step list (DataCleaning.jsx, `handleStartCleaning`, lines 197-214)

A `step` event is turned into a record with fields id/label/status/stage/
technique/timestamp and upserted into the `cleaningSteps` state list:
`findIndex` by id, append when absent, replace in place when present
(the JS merge `\x7b ...next[index], ...step \x7d` overwrites every field, since the
incoming object always carries all six keys, so the merged entry equals the
incoming step). -/

structure CleaningStep where
  id : String
  label : String
  status : String
  stage : String
  technique : String
  timestamp : String
  deriving DecidableEq, Repr

/-- Embedding of the `setCleaningSteps` updater (DataCleaning.jsx 208-214):
`findIndex` on id; `-1` appends, otherwise the entry at that index is
replaced. -/
def upsertStep (prev : List CleaningStep) (s : CleaningStep) : List CleaningStep :=
  match prev.findIdx? (fun item => item.id == s.id) with
  | none => prev ++ [s]
  | some i => prev.set i s

/-- Recursive characterisation of `upsertStep`: replace the first entry whose
id matches, else append at the end. -/
def upsertStepRec : List CleaningStep → CleaningStep → List CleaningStep
  | [], s => [s]
  | x :: xs, s => if x.id = s.id then s :: xs else x :: upsertStepRec xs s

/-- The step list after a sequence of `step` events, starting from the empty
list (the state is reset to `[]` when a run starts, DataCleaning.jsx 164). -/
def runSteps (evs : List CleaningStep) : List CleaningStep :=
  evs.foldl upsertStep []

/-- Insert an id at the back unless it is already present. -/
def insertNewId (acc : List String) (a : String) : List String :=
  if a ∈ acc then acc else acc ++ [a]

/-- Ids in order of first appearance. -/
def firstAppearanceOrder (ids : List String) : List String :=
  ids.foldl insertNewId []

/-- Sample step used to instantiate hypotheses of the step-list theorem. -/
def sampleStep : CleaningStep :=
  { id := "dedup", label := "Duplicate Removal", status := "running",
    stage := "dedup", technique := "exact match", timestamp := "t0" }

/-! ## SSE stream parser (api.js, `streamDataCleaning`, lines 619-656)

The reader loop splits the byte stream on blank lines into message blocks and,
for each complete block: trims each line, takes the event name from the first
`event:` line (the JS `replace("event:", "")` removes the leading prefix, as
the line is known to start with it) defaulting to `"message"`, joins the
trimmed `data:` line bodies with newlines, and emits exactly one event whose
payload is the JSON-parsed data text, `\x7b message: <raw> \x7d` when parsing fails
(the `try`/`catch`), or `\x7b\x7d` when the data text is empty.  `JSON.parse` is the
host's parser; it is embedded as an arbitrary partial function `parse`. -/

inductive Payload (J : Type) where
  | empty
  | json (v : J)
  | message (raw : List Char)
  deriving DecidableEq, Repr

/-- JS `String.prototype.trim` removes these characters at either end. -/
def isWsChar (c : Char) : Bool :=
  c == ' ' || c == '\t' || c == '\n' || c == '\r'

/-- JS `line.trim()` on a character sequence. -/
def trimChars (cs : List Char) : List Char :=
  ((cs.dropWhile isWsChar).reverse.dropWhile isWsChar).reverse

/-- JS `line.startsWith(tag)`. -/
def startsWithChars : List Char → List Char → Bool
  | [], _ => true
  | _ :: _, [] => false
  | p :: ps, c :: cs => p == c && startsWithChars ps cs

/-- JS `text.split("\n")`. -/
def splitOnNl : List Char → List (List Char)
  | [] => [[]]
  | '\n' :: rest => [] :: splitOnNl rest
  | c :: rest =>
    match splitOnNl rest with
    | [] => [[c]]
    | h :: t => (c :: h) :: t

/-- JS `text.split("\n\n")`: leftmost, non-overlapping double newlines. -/
def splitOnBlank : List Char → List (List Char)
  | [] => [[]]
  | '\n' :: '\n' :: rest => [] :: splitOnBlank rest
  | c :: rest =>
    match splitOnBlank rest with
    | [] => [[c]]
    | h :: t => (c :: h) :: t

/-- `rawMessage.split("\n").map(line => line.trim())` (api.js 635). -/
def sseLines (raw : List Char) : List (List Char) :=
  (splitOnNl raw).map trimChars

/-- Event name: first `event:` line with the tag stripped (the JS
`replace("event:", "")` removes the leading six characters, since the line is
known to start with them), else `"message"` (api.js 636, 639). -/
def sseEventName (raw : List Char) : List Char :=
  match (sseLines raw).find? (fun l => startsWithChars "event:".data l) with
  | some l => trimChars (l.drop 6)
  | none => "message".data

/-- Data text: the `data:` lines with the tag stripped and trimmed, joined by
newlines (api.js 637, 640). -/
def sseDataText (raw : List Char) : List Char :=
  List.intercalate ['\n']
    (((sseLines raw).filter (fun l => startsWithChars "data:".data l)).map
      (fun l => trimChars (l.drop 5)))

/-- One complete message block (api.js 634-652): exactly one `emit` call per
block; empty data emits an empty payload, parseable data the parsed value,
unparseable data a message wrapper (the `try`/`catch` around `JSON.parse`). -/
def handleRawMessage (J : Type) (parse : List Char → Option J) (raw : List Char) :
    List (List Char × Payload J) :=
  let eventName := sseEventName raw
  let dataText := sseDataText raw
  if dataText = [] then [(eventName, Payload.empty)]
  else
    match parse dataText with
    | some v => [(eventName, Payload.json v)]
    | none => [(eventName, Payload.message dataText)]

/-- The buffer step of the reader loop (api.js 630-632): append the chunk,
split on blank lines, keep the final fragment as the new buffer
(`messages.pop()`) and process every complete block. -/
def processChunk (J : Type) (parse : List Char → Option J) (buffer chunk : List Char) :
    List (List Char × Payload J) × List Char :=
  let messages := splitOnBlank (buffer ++ chunk)
  (((messages.dropLast).map (handleRawMessage J parse)).flatten,
    (messages.getLast?).getD [])

/-! ## Cleaned-dataset download (api.js, `downloadCleanedDataset`, lines 479-503)

On a successful response the client reads the `content-disposition` header
(defaulting to the empty string), matches it against the regular expression
`/filename="?([^";]+)"?/i` and returns the capture when the match succeeds,
else the default name `cleaned_<cleanedDataId>.<format>`. -/

/-- The double-quote character, written by code point to keep string literals
simple. -/
def dquote : Char := Char.ofNat 34

/-- ASCII lowercasing, for the regex `i` flag. -/
def lowerAscii (c : Char) : Char :=
  if 65 ≤ c.toNat && c.toNat ≤ 90 then Char.ofNat (c.toNat + 32) else c

/-- The literal part of the pattern, lowercase. -/
def filenamePat : List Char := ['f', 'i', 'l', 'e', 'n', 'a', 'm', 'e']

/-- Case-insensitive literal match: consume `pat` from the head of the input,
returning the rest. -/
def matchLiteralCI : List Char → List Char → Option (List Char)
  | [], cs => some cs
  | _ :: _, [] => none
  | p :: ps, c :: cs => if lowerAscii c == p then matchLiteralCI ps cs else none

/-- A character admitted by the capture class of the regex: anything except a
double quote or a semicolon. -/
def isCaptureChar (c : Char) : Bool :=
  !(c == dquote || c == ';')

/-- Attempt of `/filename="?([^";]+)"?/i` anchored at the head of the input:
the literal (case-insensitive), `=`, an optional opening quote, then the
greedy nonempty capture run.  The optional closing quote does not affect the
capture. -/
def filenameCapture (cs : List Char) : Option (List Char) :=
  match matchLiteralCI filenamePat cs with
  | none => none
  | some rest =>
    match rest with
    | '=' :: rest2 =>
      let rest3 :=
        match rest2 with
        | c :: r => if c == dquote then r else rest2
        | [] => rest2
      let run := rest3.takeWhile isCaptureChar
      if run = [] then none else some run
    | _ => none

/-- The unanchored regex search: try each start position left to right. -/
def findFilename : List Char → Option (List Char)
  | [] => none
  | c :: cs =>
    match filenameCapture (c :: cs) with
    | some r => some r
    | none => findFilename cs

/-- api.js 496-502: `match?.[1] || cleaned_<id>.<format>` over the
`content-disposition` header (absent headers read as the empty string). -/
def downloadFilename (disposition : Option (List Char))
    (cleanedDataId format : List Char) : List Char :=
  match findFilename (disposition.getD []) with
  | some name => name
  | none => "cleaned_".data ++ cleanedDataId ++ '.' :: format

/-! ## Server-side cleaning engine

The repository contains only the client; the cleaning engine behind
`GET /api/analysis/clean-stream/<dataId>` and `POST /api/analysis/clean/<dataId>`
is not under `src/`.  Every definition in this section is modelled from the
spec (sections 3, 4.3, 4.4, 4.5, 6) and says so in its doc comment. -/

/-- Modelled from the spec: a cell of the in-memory table — a missing value,
a numeric value, or a text value (spec section 3, RawDataset: rows of named
fields, heterogeneous types). -/
inductive Cell where
  | missing
  | num (q : ℚ)
  | str (s : List Char)
  deriving DecidableEq, Repr

/-- Modelled from the spec: a table is a list of rows of cells. -/
abbrev Row := List Cell

/-- Modelled from the spec: the in-memory table owned by one run. -/
abbrev Table := List Row

/-- Keep an element only when it is not already present (deduplication that
keeps first occurrences). -/
def insertNew (acc : List Row) (a : Row) : List Row :=
  if a ∈ acc then acc else acc ++ [a]

/-- Modelled from the spec: the dedup stage removes duplicate rows, keeping
the first occurrence (spec section 4.3). -/
def dedupStage (t : Table) : Table :=
  t.foldl insertNew []

/-- Modelled from the spec: the AdaptiveConfig chosen once per run (spec
section 3).  The impute strategy is represented by the value it fills in, and
the outlier method by the bounds it clamps to. -/
structure AdaptiveConfig where
  imputeValue : ℚ
  outlierLo : ℚ
  outlierHi : ℚ
  deriving DecidableEq, Repr

/-- Modelled from the spec: imputation fills missing cells with the value the
strategy chose (spec section 4.2/4.3). -/
def imputeCell (cfg : AdaptiveConfig) : Cell → Cell
  | Cell.missing => Cell.num cfg.imputeValue
  | c => c

/-- Minimum of two rationals, by an explicit comparison. -/
def minQ (a b : ℚ) : ℚ := if a ≤ b then a else b

/-- Maximum of two rationals, by an explicit comparison. -/
def maxQ (a b : ℚ) : ℚ := if a ≤ b then b else a

/-- Clamp to an interval. -/
def clampQ (lo hi q : ℚ) : ℚ := maxQ lo (minQ hi q)

/-- Modelled from the spec: outlier handling caps numeric values at the
method's bounds (spec section 4.3, scenario 4: "outliers capped"). -/
def outlierCell (cfg : AdaptiveConfig) : Cell → Cell
  | Cell.num q => Cell.num (clampQ cfg.outlierLo cfg.outlierHi q)
  | c => c

/-- Parse an all-digit character list to a natural number; anything else is
not coercible. -/
def parseNatChars (cs : List Char) : Option ℕ :=
  if cs = [] then none
  else
    cs.foldl
      (fun acc c =>
        match acc with
        | none => none
        | some n => if c.isDigit then some (n * 10 + (c.toNat - 48)) else none)
      (some 0)

/-- Modelled from the spec: type coercion turns numeral text into numbers and
leaves everything else alone (spec section 4.3). -/
def coerceCell : Cell → Cell
  | Cell.str s =>
    match parseNatChars s with
    | some n => Cell.num n
    | none => Cell.str s
  | c => c

/-- Modelled from the spec: the text/structure-normalization stage; the
text-cleaning rule is whitespace removal (spec sections 4.1/4.3: whitespace
normalization for text columns). -/
def textCell : Cell → Cell
  | Cell.str s => Cell.str (s.filter (fun c => !isWsChar c))
  | c => c

/-- Apply a cell transformation to the whole table. -/
def mapCells (f : Cell → Cell) (t : Table) : Table :=
  t.map (fun row => row.map f)

/-- Modelled from the spec: imputation stage. -/
def imputeStage (cfg : AdaptiveConfig) (t : Table) : Table := mapCells (imputeCell cfg) t

/-- Modelled from the spec: outlier stage. -/
def outlierStage (cfg : AdaptiveConfig) (t : Table) : Table := mapCells (outlierCell cfg) t

/-- Modelled from the spec: type-coercion stage. -/
def coerceStage (t : Table) : Table := mapCells coerceCell t

/-- Modelled from the spec: text/structure-normalization stage. -/
def textStage (t : Table) : Table := mapCells textCell t

/-- Modelled from the spec: the fixed `full_pipeline` order
dedup → impute → outlier → type coercion → text normalization
(spec section 4.3). -/
def fullPipeline (cfg : AdaptiveConfig) (t : Table) : Table :=
  textStage (coerceStage (outlierStage cfg (imputeStage cfg (dedupStage t))))

/-- A cell already clean for every stage: not missing, numeric values within
the configured bounds, text neither coercible nor containing whitespace. -/
def cleanCell (cfg : AdaptiveConfig) (c : Cell) : Bool :=
  match c with
  | Cell.missing => false
  | Cell.num q => decide (cfg.outlierLo ≤ q) && decide (q ≤ cfg.outlierHi)
  | Cell.str s => decide (parseNatChars s = none) && (s.filter (fun c2 => !isWsChar c2) == s)

/-- An already-cleaned table: no duplicate rows and every cell clean. -/
def Clean (cfg : AdaptiveConfig) (t : Table) : Prop :=
  t.Nodup ∧ ∀ row ∈ t, ∀ c ∈ row, cleanCell cfg c = true

/-- Cells of the table in row order. -/
def cellsOf (t : Table) : List Cell := t.flatten

/-- Missing-cell count (spec section 4.5: completeness). -/
def missingCount (t : Table) : ℕ :=
  ((cellsOf t).filter (fun c => c == Cell.missing)).length

/-- Duplicate-row count: rows beyond the first occurrence of each. -/
def dupCount (t : Table) : ℕ := t.length - (dedupStage t).length

/-- Modelled from the spec: an extreme numeric cell for scoring purposes
(fixed documented threshold, spec section 4.5: outlier rate). -/
def isOutlierCell (c : Cell) : Bool :=
  match c with
  | Cell.num q => decide (q < -1000 ∨ 1000 < q)
  | _ => false

/-- Outlier-cell count. -/
def outlierCount (t : Table) : ℕ :=
  ((cellsOf t).filter isOutlierCell).length

/-- Missing rate over cells, zero for an empty table. -/
def missingRate (t : Table) : ℚ :=
  if (cellsOf t).length = 0 then 0 else (missingCount t : ℚ) / ((cellsOf t).length : ℚ)

/-- Duplicate rate over rows, zero for an empty table. -/
def dupRate (t : Table) : ℚ :=
  if t.length = 0 then 0 else (dupCount t : ℚ) / (t.length : ℚ)

/-- Outlier rate over cells, zero for an empty table. -/
def outlierRate (t : Table) : ℚ :=
  if (cellsOf t).length = 0 then 0 else (outlierCount t : ℚ) / ((cellsOf t).length : ℚ)

/-- Modelled from the spec: the quality scorer — an equally weighted
combination of (1 − missing rate), (1 − duplicate rate), (1 − outlier rate),
clamped to [0,1]; deterministic by construction (spec section 4.5). -/
def qualityScore (t : Table) : ℚ :=
  clampQ 0 1 (((1 - missingRate t) + (1 - dupRate t) + (1 - outlierRate t)) / 3)

/-- Status carried by a `step` event (spec section 3, CleaningStep). -/
inductive StepStatus where
  | running
  | completed
  | failed
  deriving DecidableEq, Repr

/-- Modelled from the spec: the events of the progress stream
(spec section 4.4). -/
inductive SEvent where
  | start (cfg : AdaptiveConfig)
  | step (stageIdx : ℕ) (status : StepStatus) (progress : ℚ)
  | complete (score : ℚ) (cleanedRows : ℕ)
  | error (msg : List Char)
  deriving DecidableEq, Repr

/-- A stage of the executor: transforms the table or throws
(spec section 4.3, failure semantics). -/
abbrev Stage := Table → Except (List Char) Table

/-- Modelled from the spec: the event-emitting executor.  Each stage emits a
`running` step and then either a `completed` step — with progress
`(completed stages / total stages) * 100` — or a `failed` step when it
throws, which aborts the rest of the pipeline (spec section 4.3). -/
def execStages (n : ℕ) (stages : List Stage) (i : ℕ) (t : Table) :
    List SEvent × Except (List Char) Table :=
  match stages with
  | [] => ([], Except.ok t)
  | s :: rest =>
    let runEv := SEvent.step i StepStatus.running ((i * 100 : ℚ) / (n : ℚ))
    match s t with
    | Except.error m =>
      ([runEv, SEvent.step i StepStatus.failed ((i * 100 : ℚ) / (n : ℚ))], Except.error m)
    | Except.ok t2 =>
      let doneEv := SEvent.step i StepStatus.completed (((i + 1) * 100 : ℚ) / (n : ℚ))
      (runEv :: doneEv :: (execStages n rest (i + 1) t2).1, (execStages n rest (i + 1) t2).2)

/-- Modelled from the spec: one streamed run — exactly one `start`, the
executor's step events, and one terminal event: `complete` with the final
quality score and cleaned-row count on success, `error` with a message on a
stage failure, in which case nothing is returned (spec section 4.4). -/
def runClean (cfg : AdaptiveConfig) (stages : List Stage) (t : Table) :
    List SEvent × Option (Table × ℚ) :=
  match (execStages stages.length stages 0 t).2 with
  | Except.ok t2 =>
    (SEvent.start cfg :: (execStages stages.length stages 0 t).1
        ++ [SEvent.complete (qualityScore t2) t2.length],
      some (t2, qualityScore t2))
  | Except.error m =>
    (SEvent.start cfg :: (execStages stages.length stages 0 t).1 ++ [SEvent.error m], none)

/-- Modelled from the spec: the artifact store persists the cleaned table
only when the run succeeds; a failed run leaves the store untouched
(spec section 4.3: no partial persistence). -/
def runCleanPersist (cfg : AdaptiveConfig) (stages : List Stage) (t : Table)
    (store : List Table) : List SEvent × List Table :=
  match (runClean cfg stages t).2 with
  | some (t2, _) => ((runClean cfg stages t).1, store ++ [t2])
  | none => ((runClean cfg stages t).1, store)

/-- Modelled from the spec: the synchronous fallback endpoint runs the same
stages without emitting events and returns only the final result
(spec sections 2, 4.4, 5). -/
def runStagesSync (stages : List Stage) (t : Table) : Except (List Char) Table :=
  match stages with
  | [] => Except.ok t
  | s :: rest =>
    match s t with
    | Except.error m => Except.error m
    | Except.ok t2 => runStagesSync rest t2

/-- Modelled from the spec: the synchronous endpoint's visible outcome —
quality score and cleaned-row count (spec section 6). -/
def syncClean (stages : List Stage) (t : Table) : Option (ℚ × ℕ) :=
  match runStagesSync stages t with
  | Except.ok t2 => some (qualityScore t2, t2.length)
  | Except.error _ => none

/-- The algorithm identifiers the client offers (DataCleaning.jsx 33-39). -/
inductive Algorithm where
  | full_pipeline
  | missing_values
  | duplicates
  | outliers
  | text_cleaning
  deriving DecidableEq, Repr

/-- A pure table transformation as a non-throwing stage. -/
def liftStage (f : Table → Table) : Stage := fun t => Except.ok (f t)

/-- Modelled from the spec: the stages each algorithm runs; `full_pipeline`
runs all five in fixed order, a single named algorithm runs its stage
(spec section 4.3). -/
def stagesFor (alg : Algorithm) (cfg : AdaptiveConfig) : List Stage :=
  match alg with
  | Algorithm.full_pipeline =>
    [liftStage dedupStage, liftStage (imputeStage cfg), liftStage (outlierStage cfg),
      liftStage coerceStage, liftStage textStage]
  | Algorithm.missing_values => [liftStage (imputeStage cfg)]
  | Algorithm.duplicates => [liftStage dedupStage]
  | Algorithm.outliers => [liftStage (outlierStage cfg)]
  | Algorithm.text_cleaning => [liftStage textStage]

/-- The progress values carried by the step events, in order. -/
def progressList (evs : List SEvent) : List ℚ :=
  evs.filterMap
    (fun e =>
      match e with
      | SEvent.step _ _ p => some p
      | _ => none)

/-- Is this a `start` event? -/
def isStart : SEvent → Bool
  | SEvent.start _ => true
  | _ => false

/-- Is this a `complete` event? -/
def isComplete : SEvent → Bool
  | SEvent.complete _ _ => true
  | _ => false

/-- Is this an `error` event? -/
def isError : SEvent → Bool
  | SEvent.error _ => true
  | _ => false

/-- A stage that always throws, used to instantiate the failure hypotheses. -/
def failStage : Stage := fun _ => Except.error "coercion failed".data

/-- A concrete AdaptiveConfig for witnesses. -/
def cfg0 : AdaptiveConfig := { imputeValue := 0, outlierLo := 0, outlierHi := 1 }

/-- A concrete already-clean table: two distinct clean text rows. -/
def cleanTable0 : Table := [[Cell.str "ab".data], [Cell.str "cd".data]]

/-! ## Quality-score transformations on the client (DataCleaning.jsx)

`normalizeDataset` (line 47) rounds the loaded score to two decimals:
`Math.round(Number(qualityScore ?? quality_score ?? 0) * 100) / 100`.
The `complete`-event handler (line 237) instead computes
`Math.round(Number(data?.quality_score ?? ...) * 10000) / 100`, which scales a
[0,1] score by 100.  JS `Math.round` rounds half toward positive infinity,
which is Mathlib's `round`. -/

/-- The quality-score transformation of `normalizeDataset`
(DataCleaning.jsx 47). -/
def normalizeQuality (q : ℚ) : ℚ := ((round (q * 100) : ℤ) : ℚ) / 100

/-- The quality-score transformation of the `complete`-event handler
(DataCleaning.jsx 237). -/
def completeQuality (q : ℚ) : ℚ := ((round (q * 10000) : ℤ) : ℚ) / 100

/-! ## Client run orchestration (DataCleaning.jsx, `handleStartCleaning`, 154-286)

The handler opens the stream; its `onEvent` callback records whether a
`complete` event arrived and drives `streamStatus`.  If the stream call
throws — whether before or after delivering events — the `catch` block (265)
sets the `fallback` state and calls `runDataCleaning` once; a throw there
yields the `error` state.  If the stream returns without a `complete` event,
the success path (252) sets the `fallback` state and calls `runDataCleaning`;
if that call throws, control falls into the same outer `catch`, which calls
`runDataCleaning` a second time. -/

/-- One client-observed stream event, by name. -/
inductive CliEvent where
  | start
  | step
  | complete
  | error
  deriving DecidableEq, Repr

/-- One run's environment: the events the stream delivers before it ends,
whether the stream call throws, and whether each synchronous fallback call
(first, second) succeeds. -/
structure StreamEnv where
  events : List CliEvent
  streamThrows : Bool
  fb1Ok : Bool
  fb2Ok : Bool
  deriving DecidableEq, Repr

/-- Status transitions driven by stream events (DataCleaning.jsx 179-248):
`start` sets live, `complete` sets completed, `error` sets error, `step`
leaves the status alone. -/
def applyEvent (st : String) : CliEvent → String
  | CliEvent.start => "live"
  | CliEvent.step => st
  | CliEvent.complete => "completed"
  | CliEvent.error => "error"

/-- The stream status after all delivered events, starting from the
`connecting` state set at 165. -/
def streamFinalStatus (evs : List CliEvent) : String :=
  evs.foldl applyEvent "connecting"

/-- Did the handler see a `complete` event (the `completeEvent` flag, 172)? -/
def hasComplete (evs : List CliEvent) : Bool := evs.contains CliEvent.complete

/-- Embedding of `handleStartCleaning`'s control flow: the number of
`runDataCleaning` calls made, whether the `fallback` state was entered, and
the final stream status. -/
def clientRun (env : StreamEnv) : ℕ × Bool × String :=
  if env.streamThrows then
    if env.fb1Ok then (1, true, "fallback") else (1, true, "error")
  else if hasComplete env.events then
    (0, false, streamFinalStatus env.events)
  else
    if env.fb1Ok then (1, true, "fallback")
    else if env.fb2Ok then (2, true, "fallback") else (2, true, "error")

/-- A run whose stream ends with an explicit `error` event and whose first
fallback call throws. -/
def envErrorFb1Throws : StreamEnv :=
  ⟨[CliEvent.start, CliEvent.error], false, false, true⟩

/-- A run whose stream ends with an explicit `error` event and whose first
fallback call succeeds. -/
def envErrorFb1Ok : StreamEnv :=
  ⟨[CliEvent.start, CliEvent.error], false, true, true⟩

theorem upsertStep_eq_rec (l : List CleaningStep) (s : CleaningStep) :
    upsertStep l s = upsertStepRec l s := by
  induction l with
  | nil => rfl
  | cons x xs ih =>
    by_cases h : x.id = s.id
    · simp [upsertStep, upsertStepRec, List.findIdx?_cons, h]
    · have hb : (x.id == s.id) = false := by
        simpa [beq_iff_eq] using h
      simp only [upsertStep, upsertStepRec, List.findIdx?_cons, hb, if_neg h]
      simp only [upsertStep] at ih
      cases hfind : xs.findIdx? (fun item => item.id == s.id) with
      | none => simpa [hfind] using ih
      | some i => simpa [hfind] using ih

theorem upsertStepRec_map_id (l : List CleaningStep) (s : CleaningStep) :
    (upsertStepRec l s).map CleaningStep.id = insertNewId (l.map CleaningStep.id) s.id := by
  induction l with
  | nil => simp [upsertStepRec, insertNewId]
  | cons x xs ih =>
    by_cases h : x.id = s.id
    · simp [upsertStepRec, insertNewId, h]
    · by_cases hmem : s.id ∈ xs.map CleaningStep.id
      · simp [upsertStepRec, insertNewId, h, hmem, ih, Ne.symm h]
      · simp [upsertStepRec, insertNewId, h, hmem, ih, Ne.symm h]

theorem foldl_upsert_map_id (evs : List CleaningStep) (acc : List CleaningStep) :
    (evs.foldl upsertStep acc).map CleaningStep.id =
      (evs.map CleaningStep.id).foldl insertNewId (acc.map CleaningStep.id) := by
  induction evs generalizing acc with
  | nil => rfl
  | cons e evs ih =>
    simp only [List.foldl_cons, List.map_cons, ih, upsertStep_eq_rec, upsertStepRec_map_id]

theorem insertNewId_nodup (acc : List String) (a : String) (h : acc.Nodup) :
    (insertNewId acc a).Nodup := by
  unfold insertNewId
  by_cases hmem : a ∈ acc
  · simpa [hmem] using h
  · simp [hmem, List.nodup_append, h]

theorem foldl_insertNewId_nodup (ids : List String) (acc : List String) (h : acc.Nodup) :
    (ids.foldl insertNewId acc).Nodup := by
  induction ids generalizing acc with
  | nil => simpa using h
  | cons a ids ih => exact ih _ (insertNewId_nodup acc a h)

theorem upsertStepRec_not_mem (l : List CleaningStep) (s : CleaningStep)
    (h : s.id ∉ l.map CleaningStep.id) : upsertStepRec l s = l ++ [s] := by
  induction l with
  | nil => rfl
  | cons x xs ih =>
    simp only [List.map_cons, List.mem_cons] at h
    push_neg at h
    have hx : ¬x.id = s.id := fun hx => h.1 hx.symm
    simp [upsertStepRec, hx, ih h.2]

theorem upsertStepRec_mem (l : List CleaningStep) (s : CleaningStep)
    (h : s.id ∈ l.map CleaningStep.id) :
    upsertStepRec l s = l.set ((l.map CleaningStep.id).indexOf s.id) s := by
  induction l with
  | nil => simp at h
  | cons x xs ih =>
    by_cases hx : x.id = s.id
    · simp [upsertStepRec, hx, List.indexOf_cons, beq_iff_eq, List.set]
    · have hmem : s.id ∈ xs.map CleaningStep.id := by
        rcases (by simpa using h : s.id = x.id ∨ s.id ∈ xs.map CleaningStep.id) with h1 | h2
        · exact absurd h1.symm hx
        · exact h2
      have hb : (x.id == s.id) = false := by simpa [beq_iff_eq] using hx
      simp [upsertStepRec, hx, List.indexOf_cons, hb, ih hmem, List.set]

/-- C10: processing a sequence of `step` events keeps at most one entry per
step id: an unseen id is appended at the end, a seen id replaces the entry at
its first-appearance index in place, and the resulting id order is always the
order of first appearance. -/
theorem c10_step_list_first_appearance :
    (∀ evs : List CleaningStep, ((runSteps evs).map CleaningStep.id).Nodup) ∧
    (∀ evs : List CleaningStep,
      (runSteps evs).map CleaningStep.id = firstAppearanceOrder (evs.map CleaningStep.id)) ∧
    (∀ (l : List CleaningStep) (s : CleaningStep), s.id ∉ l.map CleaningStep.id →
      upsertStep l s = l ++ [s]) ∧
    (∀ (l : List CleaningStep) (s : CleaningStep), s.id ∈ l.map CleaningStep.id →
      upsertStep l s = l.set ((l.map CleaningStep.id).indexOf s.id) s) := by
  refine ⟨?_, ?_, ?_, ?_⟩
  · intro evs
    have h := foldl_upsert_map_id evs []
    simp only [runSteps, h, List.map_nil]
    exact foldl_insertNewId_nodup _ _ List.nodup_nil
  · intro evs
    simpa [runSteps, firstAppearanceOrder] using foldl_upsert_map_id evs []
  · intro l s h
    rw [upsertStep_eq_rec]
    exact upsertStepRec_not_mem l s h
  · intro l s h
    rw [upsertStep_eq_rec]
    exact upsertStepRec_mem l s h

/-- Witness for C10 at a concrete input: the id "dedup" is not in the empty
list, so the event is appended; and after a repeated event the list still has
one entry. -/
theorem c10_step_list_first_appearance_witness :
    upsertStep [] sampleStep = [sampleStep] ∧
    upsertStep [sampleStep] sampleStep = [sampleStep] := by
  constructor
  · exact c10_step_list_first_appearance.2.2.1 [] sampleStep (by simp)
  · have h := c10_step_list_first_appearance.2.2.2 [sampleStep] sampleStep (by simp)
    simpa using h

/-- C9: for every complete server-sent message block, the parser emits exactly
one event and never throws; the event name comes from the `event:` line or
defaults to `"message"`, and the payload is the JSON value when the data text
parses, a message wrapper when it does not, and empty when there is no data
text. -/
theorem c9_sse_block_single_event (J : Type) (parse : List Char → Option J)
    (raw : List Char) :
    ∃ p, handleRawMessage J parse raw = [(sseEventName raw, p)] ∧
      (sseDataText raw = [] → p = Payload.empty) ∧
      (∀ v, sseDataText raw ≠ [] → parse (sseDataText raw) = some v → p = Payload.json v) ∧
      (sseDataText raw ≠ [] → parse (sseDataText raw) = none →
        p = Payload.message (sseDataText raw)) ∧
      ((sseLines raw).find? (fun l => startsWithChars "event:".data l) = none →
        sseEventName raw = "message".data) ∧
      (∀ l, (sseLines raw).find? (fun l2 => startsWithChars "event:".data l2) = some l →
        sseEventName raw = trimChars (l.drop 6)) := by
  by_cases hd : sseDataText raw = []
  · refine ⟨Payload.empty, ?_, fun _ => rfl, ?_, ?_, ?_, ?_⟩
    · simp [handleRawMessage, hd]
    · intro v hne
      exact absurd hd hne
    · intro hne
      exact absurd hd hne
    · intro hnone
      simp [sseEventName, hnone]
    · intro l hl
      simp [sseEventName, hl]
  · cases hp : parse (sseDataText raw) with
    | some v =>
      refine ⟨Payload.json v, ?_, fun h => absurd h hd, ?_, ?_, ?_, ?_⟩
      · simp [handleRawMessage, hd, hp]
      · intro w _ hw
        have hvw : v = w := by simpa using hw
        rw [hvw]
      · intro _ hnone
        exact absurd hnone (by simp)
      · intro hnone
        simp [sseEventName, hnone]
      · intro l hl
        simp [sseEventName, hl]
    | none =>
      refine ⟨Payload.message (sseDataText raw), ?_, fun h => absurd h hd, ?_,
        fun _ _ => rfl, ?_, ?_⟩
      · simp [handleRawMessage, hd, hp]
      · intro w _ hw
        exact absurd hw (by simp)
      · intro hnone
        simp [sseEventName, hnone]
      · intro l hl
        simp [sseEventName, hl]

/-- Witness for C9 at a concrete block: an unparseable data body is wrapped in
a message payload under the event name from the `event:` line. -/
theorem c9_sse_block_single_event_witness :
    handleRawMessage Nat (fun _ => none) "event: complete\ndata: done".data =
      [("complete".data, Payload.message "done".data)] := by
  obtain ⟨p, hp, _, _, hmsg, _, _⟩ :=
    c9_sse_block_single_event Nat (fun _ => none) "event: complete\ndata: done".data
  have hdata : sseDataText "event: complete\ndata: done".data = "done".data := by decide
  have hname : sseEventName "event: complete\ndata: done".data = "complete".data := by decide
  rw [hp, hname, hmsg (by rw [hdata]; decide) rfl, hdata]

theorem matchLiteralCI_exact (p rest : List Char) (h : ∀ c ∈ p, lowerAscii c = c) :
    matchLiteralCI p (p ++ rest) = some rest := by
  induction p with
  | nil => rfl
  | cons c ps ih =>
    have hc : lowerAscii c = c := h c (List.mem_cons_self c ps)
    simp only [List.cons_append, matchLiteralCI, hc, beq_self_eq_true, if_true]
    exact ih fun d hd => h d (List.mem_cons_of_mem c hd)

theorem takeWhile_append_stop (p : Char → Bool) (l r : List Char) (c : Char)
    (h : ∀ d ∈ l, p d = true) (hc : p c = false) :
    (l ++ c :: r).takeWhile p = l := by
  induction l with
  | nil => simp [List.takeWhile, hc]
  | cons d l ih =>
    have hd : p d = true := h d (List.mem_cons_self d l)
    simp only [List.cons_append, List.takeWhile, hd]
    exact congrArg (List.cons d) (ih fun x hx => h x (List.mem_cons_of_mem d hx))

theorem filenameCapture_cons_ne (c : Char) (cs : List Char)
    (h : (lowerAscii c == 'f') = false) : filenameCapture (c :: cs) = none := by
  simp [filenameCapture, filenamePat, matchLiteralCI, h]

theorem findFilename_append_no (pre rest : List Char)
    (h : ∀ c ∈ pre, (lowerAscii c == 'f') = false) :
    findFilename (pre ++ rest) = findFilename rest := by
  induction pre with
  | nil => rfl
  | cons c pre ih =>
    have hc := h c (List.mem_cons_self c pre)
    cases rest with
    | nil =>
      simp only [List.cons_append, findFilename, filenameCapture_cons_ne _ _ hc]
      exact ih fun d hd => h d (List.mem_cons_of_mem c hd)
    | cons r rs =>
      simp only [List.cons_append, findFilename, filenameCapture_cons_ne _ _ hc]
      exact ih fun d hd => h d (List.mem_cons_of_mem c hd)

theorem findFilename_quoted (name : List Char) (hne : name ≠ [])
    (hcap : ∀ c ∈ name, isCaptureChar c = true) :
    findFilename (filenamePat ++ '=' :: dquote :: name ++ [dquote]) = some name := by
  have hlit : matchLiteralCI filenamePat
      (filenamePat ++ '=' :: dquote :: name ++ [dquote]) =
      some ('=' :: dquote :: name ++ [dquote]) :=
    matchLiteralCI_exact filenamePat _ (by decide)
  have hrun : (name ++ [dquote]).takeWhile isCaptureChar = name := by
    have := takeWhile_append_stop isCaptureChar name [] dquote hcap (by decide)
    simpa using this
  have hcapture : filenameCapture (filenamePat ++ '=' :: dquote :: name ++ [dquote]) =
      some name := by
    simp only [filenameCapture, hlit]
    simp [hrun, hne]
  have hhead : filenamePat ++ '=' :: dquote :: name ++ [dquote] =
      'f' :: ("ilename".data ++ '=' :: dquote :: name ++ [dquote]) := by
    simp [filenamePat]
  rw [hhead] at hcapture ⊢
  simp only [findFilename, hcapture]

/-- C8: for a cleaned-dataset download in format csv or json, the returned
filename is the capture from the `content-disposition` header when the header
carries a `filename` token, and the default `cleaned_<cleanedDataId>.<format>`
when the header is absent or carries no such token. -/
theorem c8_download_filename (cleanedDataId format : List Char)
    (_hfmt : format = "csv".data ∨ format = "json".data) :
    downloadFilename none cleanedDataId format =
      "cleaned_".data ++ cleanedDataId ++ '.' :: format ∧
    downloadFilename (some "attachment".data) cleanedDataId format =
      "cleaned_".data ++ cleanedDataId ++ '.' :: format ∧
    (∀ name : List Char, name ≠ [] → (∀ c ∈ name, isCaptureChar c = true) →
      downloadFilename
        (some ("attachment; ".data ++ filenamePat ++ '=' :: dquote :: name ++ [dquote]))
        cleanedDataId format = name) := by
  refine ⟨rfl, ?_, ?_⟩
  · have h : findFilename "attachment".data = none := by decide
    simp [downloadFilename, h]
  · intro name hne hcap
    have hpre : ∀ c ∈ "attachment; ".data, (lowerAscii c == 'f') = false := by decide
    have h1 := findFilename_append_no "attachment; ".data
      (filenamePat ++ '=' :: dquote :: name ++ [dquote]) hpre
    have h2 := findFilename_quoted name hne hcap
    unfold downloadFilename
    have hdat : "attachment; ".data = ['a', 't', 't', 'a', 'c', 'h', 'm', 'e', 'n', 't', ';', ' '] := rfl
    rw [hdat] at h1
    simp only [Option.getD_some, List.append_assoc, List.cons_append] at h1 h2 ⊢
    rw [h1, h2]

/-- Witness for C8 at a concrete input: a quoted filename hint is extracted,
and both hypotheses of the theorem are discharged concretely. -/
theorem c8_download_filename_witness :
    downloadFilename
      (some ("attachment; ".data ++ filenamePat ++ '=' :: dquote :: "report.csv".data
        ++ [dquote]))
      "7".data "csv".data = "report.csv".data := by
  have h := c8_download_filename "7".data "csv".data (Or.inl rfl)
  exact h.2.2 "report.csv".data (by decide) (by decide)

theorem execStages_result (n : ℕ) (stages : List Stage) (i : ℕ) (t : Table) :
    (execStages n stages i t).2 = runStagesSync stages t := by
  induction stages generalizing i t with
  | nil => rfl
  | cons s rest ih =>
    cases hs : s t with
    | error m => simp [execStages, runStagesSync, hs]
    | ok t2 => simp [execStages, runStagesSync, hs, ih (i + 1) t2]

theorem execStages_mem_step (n : ℕ) (stages : List Stage) (i : ℕ) (t : Table) :
    ∀ e ∈ (execStages n stages i t).1, ∃ j st p, e = SEvent.step j st p := by
  induction stages generalizing i t with
  | nil =>
    intro e he
    simp [execStages] at he
  | cons s rest ih =>
    intro e he
    cases hs : s t with
    | error m =>
      simp only [execStages, hs, List.mem_cons, List.mem_singleton,
        List.not_mem_nil, or_false] at he
      rcases he with he | he
      · exact ⟨i, StepStatus.running, _, he⟩
      · exact ⟨i, StepStatus.failed, _, he⟩
    | ok t2 =>
      simp only [execStages, hs, List.mem_cons] at he
      rcases he with he | he | he
      · exact ⟨i, StepStatus.running, _, he⟩
      · exact ⟨i, StepStatus.completed, _, he⟩
      · exact ih (i + 1) t2 e he

theorem execStages_countP_zero (n : ℕ) (stages : List Stage) (i : ℕ) (t : Table)
    (p : SEvent → Bool) (hp : ∀ j st pr, p (SEvent.step j st pr) = false) :
    (execStages n stages i t).1.countP p = 0 := by
  apply List.countP_eq_zero.mpr
  intro e he
  obtain ⟨j, st, pr, rfl⟩ := execStages_mem_step n stages i t e he
  simp [hp]

/-- C3: every run emits exactly one `start` event and exactly one terminal
event — `complete` or `error`, never both and never neither. -/
theorem c3_event_completeness (cfg : AdaptiveConfig) (stages : List Stage) (t : Table) :
    ((runClean cfg stages t).1.countP isStart = 1) ∧
    ((runClean cfg stages t).1.countP isComplete
      + (runClean cfg stages t).1.countP isError = 1) := by
  have hstart := execStages_countP_zero stages.length stages 0 t isStart
    (fun j st pr => rfl)
  have hcomp := execStages_countP_zero stages.length stages 0 t isComplete
    (fun j st pr => rfl)
  have herr := execStages_countP_zero stages.length stages 0 t isError
    (fun j st pr => rfl)
  cases hr : (execStages stages.length stages 0 t).2 with
  | ok t2 =>
    simp only [runClean, hr]
    constructor
    · simp [List.countP_cons, List.countP_append, hstart, isStart]
    · simp [List.countP_cons, List.countP_append, hcomp, herr, isComplete, isError]
  | error m =>
    simp only [runClean, hr]
    constructor
    · simp [List.countP_cons, List.countP_append, hstart, isStart]
    · simp [List.countP_cons, List.countP_append, hcomp, herr, isComplete, isError]

/-- C4: for a fixed dataset, algorithm and AdaptiveConfig, the synchronous
fallback path returns the same quality score and cleaned-row count as the
streaming path — both run the same executor, shown in general for any stage
list. -/
theorem c4_stream_fallback_equivalence (alg : Algorithm) (cfg : AdaptiveConfig) (t : Table) :
    ((runClean cfg (stagesFor alg cfg) t).2.map (fun p => (p.2, p.1.length))
      = syncClean (stagesFor alg cfg) t) ∧
    ∀ stages : List Stage,
      (runClean cfg stages t).2.map (fun p => (p.2, p.1.length)) = syncClean stages t := by
  have key : ∀ stages : List Stage,
      (runClean cfg stages t).2.map (fun p => (p.2, p.1.length)) = syncClean stages t := by
    intro stages
    unfold runClean syncClean
    rw [← execStages_result stages.length stages 0 t]
    cases hr : (execStages stages.length stages 0 t).2 with
    | ok t2 => simp [hr]
    | error m => simp [hr]
  exact ⟨key _, key⟩

/-- C5: if a stage throws during a run, the run ends in the error state with
a single `error` event carrying the message, returns nothing, and persists
nothing — the artifact store is unchanged, so earlier stages' results are
discarded. -/
theorem c5_stage_failure_discards (cfg : AdaptiveConfig) (stages : List Stage) (t : Table)
    (store : List Table) (m : List Char)
    (h : runStagesSync stages t = Except.error m) :
    (runClean cfg stages t).2 = none ∧
    (runCleanPersist cfg stages t store).2 = store ∧
    (runClean cfg stages t).1.getLast? = some (SEvent.error m) ∧
    (runClean cfg stages t).1.countP isError = 1 := by
  have hr : (execStages stages.length stages 0 t).2 = Except.error m := by
    rw [execStages_result]
    exact h
  have h2 : (runClean cfg stages t).2 = none := by simp [runClean, hr]
  refine ⟨h2, ?_, ?_, ?_⟩
  · simp [runCleanPersist, h2]
  · simp only [runClean, hr]
    rw [List.getLast?_concat]
  · have herr := execStages_countP_zero stages.length stages 0 t isError
      (fun j st pr => rfl)
    simp only [runClean, hr]
    simp [List.countP_cons, List.countP_append, herr, isError]

/-- Witness for C5 at a concrete input: a one-stage pipeline whose stage
throws leaves the store untouched and returns nothing. -/
theorem c5_stage_failure_discards_witness :
    (runClean cfg0 [failStage] [[Cell.num 2]]).2 = none ∧
    (runCleanPersist cfg0 [failStage] [[Cell.num 2]] [[[Cell.num 3]]]).2 = [[[Cell.num 3]]] ∧
    (runClean cfg0 [failStage] [[Cell.num 2]]).1.getLast?
      = some (SEvent.error "coercion failed".data) ∧
    (runClean cfg0 [failStage] [[Cell.num 2]]).1.countP isError = 1 :=
  c5_stage_failure_discards cfg0 [failStage] [[Cell.num 2]] [[[Cell.num 3]]]
    "coercion failed".data rfl

theorem div_cast_mono (a b : ℚ) (n : ℕ) (h : a ≤ b) : a / (n : ℚ) ≤ b / (n : ℚ) :=
  div_le_div_of_nonneg_right h (Nat.cast_nonneg n)

theorem progressList_cons_step (j : ℕ) (st : StepStatus) (p : ℚ) (l : List SEvent) :
    progressList (SEvent.step j st p :: l) = p :: progressList l := by
  simp [progressList]

theorem execStages_progress_chain (n : ℕ) (stages : List Stage) (i : ℕ) (t : Table) :
    List.Chain' (fun a b => a ≤ b)
      (((i * 100 : ℚ) / (n : ℚ)) :: progressList (execStages n stages i t).1) := by
  induction stages generalizing i t with
  | nil => simp [execStages, progressList]
  | cons s rest ih =>
    cases hs : s t with
    | error m =>
      simp [execStages, hs, progressList, List.chain'_cons]
    | ok t2 =>
      have hle : ((i * 100 : ℚ) / (n : ℚ)) ≤ (((i + 1) * 100 : ℚ) / (n : ℚ)) := by
        apply div_cast_mono
        have h0 : (0 : ℚ) ≤ (i : ℚ) := Nat.cast_nonneg i
        nlinarith
      simp only [execStages, hs, progressList_cons_step]
      rw [List.chain'_cons, List.chain'_cons]
      refine ⟨le_refl _, hle, ?_⟩
      have ihh := ih (i + 1) t2
      push_cast at ihh ⊢
      exact ihh

theorem execStages_progress_getLast (n : ℕ) (stages : List Stage) (i : ℕ) (t : Table)
    (t2 : Table) (hok : (execStages n stages i t).2 = Except.ok t2) (hne : stages ≠ []) :
    (progressList (execStages n stages i t).1).getLast?
      = some (((i + stages.length) * 100 : ℚ) / (n : ℚ)) := by
  induction stages generalizing i t with
  | nil => exact absurd rfl hne
  | cons s rest ih =>
    cases hs : s t with
    | error m =>
      simp [execStages, hs] at hok
    | ok t3 =>
      by_cases hrest : rest = []
      · subst hrest
        simp only [execStages, hs, progressList_cons_step]
        simp only [execStages, progressList, List.filterMap_nil, List.getLast?_cons_cons]
        simp [List.getLast?_singleton]
      · have hok2 : (execStages n rest (i + 1) t3).2 = Except.ok t2 := by
          simpa [execStages, hs] using hok
        have ihh := ih (i + 1) t3 hok2 hrest
        simp only [execStages, hs, progressList_cons_step]
        cases hpl : progressList (execStages n rest (i + 1) t3).1 with
        | nil =>
          rw [hpl] at ihh
          simp at ihh
        | cons c cs =>
          rw [hpl] at ihh
          rw [List.getLast?_cons_cons, List.getLast?_cons_cons, ihh]
          simp only [List.length_cons]
          congr 1
          push_cast
          ring

theorem progressList_runClean (cfg : AdaptiveConfig) (stages : List Stage) (t : Table) :
    progressList (runClean cfg stages t).1
      = progressList (execStages stages.length stages 0 t).1 := by
  cases hr : (execStages stages.length stages 0 t).2 with
  | ok t2 =>
    simp [runClean, hr, progressList, List.filterMap_append]
  | error m =>
    simp [runClean, hr, progressList, List.filterMap_append]

/-- C2: the progress values carried by a run's step events are non-decreasing
and, on a successful run with at least one stage, the last progress value
before the `complete` event is 100. -/
theorem c2_monotonic_progress (cfg : AdaptiveConfig) (stages : List Stage) (t : Table) :
    List.Chain' (fun a b => a ≤ b) (progressList (runClean cfg stages t).1) ∧
    (stages ≠ [] → ∀ res, (runClean cfg stages t).2 = some res →
      (progressList (runClean cfg stages t).1).getLast? = some 100) := by
  constructor
  · rw [progressList_runClean]
    exact (execStages_progress_chain stages.length stages 0 t).tail
  · intro hne res hres
    cases hr : (execStages stages.length stages 0 t).2 with
    | error m =>
      rw [runClean] at hres
      simp [hr] at hres
    | ok t2 =>
      rw [progressList_runClean]
      have hg := execStages_progress_getLast stages.length stages 0 t t2 hr hne
      rw [hg]
      have hn : ((stages.length : ℚ)) ≠ 0 := by
        have hl : stages.length ≠ 0 := fun h0 => hne (List.length_eq_zero.mp h0)
        exact_mod_cast hl
      congr 1
      push_cast
      rw [zero_add, mul_comm, mul_div_assoc, div_self hn, mul_one]

/-- Witness for C2 at a concrete input: a one-stage dedup run over a one-row
table ends with progress 100. -/
theorem c2_monotonic_progress_witness :
    (progressList (runClean cfg0 [liftStage dedupStage] [[Cell.num 0]]).1).getLast?
      = some 100 :=
  (c2_monotonic_progress cfg0 [liftStage dedupStage] [[Cell.num 0]]).2
    (by simp) ([[Cell.num 0]], 1)
    (by
      have hq : qualityScore [[Cell.num 0]] = 1 := by
        have hb : (Cell.num 0 == Cell.missing) = false := by decide
        norm_num [qualityScore, clampQ, minQ, maxQ, missingRate, dupRate, outlierRate,
          missingCount, dupCount, outlierCount, cellsOf, dedupStage, insertNew,
          isOutlierCell, hb, List.filter_cons, List.filter_nil]
      simp [runClean, execStages, liftStage, dedupStage, insertNew, hq])

theorem mem_foldl_insertNew (l : List Row) (acc : List Row) (x : Row) :
    x ∈ l.foldl insertNew acc ↔ x ∈ acc ∨ x ∈ l := by
  induction l generalizing acc with
  | nil => simp
  | cons a l ih =>
    rw [List.foldl_cons, ih]
    unfold insertNew
    by_cases ha : a ∈ acc
    · simp only [if_pos ha, List.mem_cons]
      constructor
      · rintro (hx | hx)
        · exact Or.inl hx
        · exact Or.inr (Or.inr hx)
      · rintro (hx | hx | hx)
        · exact Or.inl hx
        · exact Or.inl (hx ▸ ha)
        · exact Or.inr hx
    · simp only [if_neg ha, List.mem_append, List.mem_singleton, List.mem_cons]
      tauto

theorem insertNew_nodup (acc : List Row) (a : Row) (h : acc.Nodup) :
    (insertNew acc a).Nodup := by
  unfold insertNew
  by_cases ha : a ∈ acc
  · simpa [ha] using h
  · simp [ha, List.nodup_append, h]

theorem foldl_insertNew_nodup (l : List Row) (acc : List Row) (h : acc.Nodup) :
    (l.foldl insertNew acc).Nodup := by
  induction l generalizing acc with
  | nil => simpa using h
  | cons a l ih => exact ih _ (insertNew_nodup acc a h)

theorem dedupStage_nodup (t : Table) : (dedupStage t).Nodup :=
  foldl_insertNew_nodup t [] List.nodup_nil

theorem foldl_insertNew_of_nodup (l : List Row) (acc : List Row) (hl : l.Nodup)
    (hdisj : ∀ a ∈ l, a ∉ acc) : l.foldl insertNew acc = acc ++ l := by
  induction l generalizing acc with
  | nil => simp
  | cons a l ih =>
    have ha : a ∉ acc := hdisj a (List.mem_cons_self a l)
    have hstep : insertNew acc a = acc ++ [a] := by
      unfold insertNew
      rw [if_neg ha]
    have hdisj2 : ∀ b ∈ l, b ∉ acc ++ [a] := by
      intro b hb
      simp only [List.mem_append, List.mem_singleton]
      rintro (hbacc | hba)
      · exact hdisj b (List.mem_cons_of_mem a hb) hbacc
      · exact (List.nodup_cons.mp hl).1 (hba ▸ hb)
    rw [List.foldl_cons, hstep, ih (acc ++ [a]) (List.Nodup.of_cons hl) hdisj2]
    simp

theorem dedupStage_of_nodup (t : Table) (h : t.Nodup) : dedupStage t = t := by
  unfold dedupStage
  rw [foldl_insertNew_of_nodup t [] h (fun a _ => List.not_mem_nil a)]
  exact List.nil_append t

theorem dedupStage_idem (t : Table) : dedupStage (dedupStage t) = dedupStage t :=
  dedupStage_of_nodup (dedupStage t) (dedupStage_nodup t)

theorem mapCells_mapCells (f g : Cell → Cell) (t : Table) :
    mapCells f (mapCells g t) = mapCells (fun c => f (g c)) t := by
  simp [mapCells, List.map_map]

theorem mapCells_congr (f g : Cell → Cell) (h : ∀ c, f c = g c) (t : Table) :
    mapCells f t = mapCells g t := by
  have hfg : f = g := funext h
  rw [hfg]

theorem imputeCell_idem (cfg : AdaptiveConfig) (c : Cell) :
    imputeCell cfg (imputeCell cfg c) = imputeCell cfg c := by
  cases c <;> rfl

theorem clampQ_idem (lo hi q : ℚ) : clampQ lo hi (clampQ lo hi q) = clampQ lo hi q := by
  simp only [clampQ, minQ, maxQ]
  split_ifs <;> first | rfl | linarith

theorem outlierCell_idem (cfg : AdaptiveConfig) (c : Cell) :
    outlierCell cfg (outlierCell cfg c) = outlierCell cfg c := by
  cases c with
  | num q => simp [outlierCell, clampQ_idem]
  | missing => rfl
  | str s => rfl

theorem coerceCell_idem (c : Cell) : coerceCell (coerceCell c) = coerceCell c := by
  cases c with
  | str s =>
    cases hp : parseNatChars s with
    | some n => simp [coerceCell, hp]
    | none => simp [coerceCell, hp]
  | missing => rfl
  | num q => rfl

theorem textCell_idem (c : Cell) : textCell (textCell c) = textCell c := by
  cases c with
  | str s =>
    simp only [textCell, Cell.str.injEq]
    rw [List.filter_filter]
    simp
  | missing => rfl
  | num q => rfl

theorem imputeStage_idem (cfg : AdaptiveConfig) (t : Table) :
    imputeStage cfg (imputeStage cfg t) = imputeStage cfg t := by
  unfold imputeStage
  rw [mapCells_mapCells]
  exact mapCells_congr _ _ (imputeCell_idem cfg) t

theorem outlierStage_idem (cfg : AdaptiveConfig) (t : Table) :
    outlierStage cfg (outlierStage cfg t) = outlierStage cfg t := by
  unfold outlierStage
  rw [mapCells_mapCells]
  exact mapCells_congr _ _ (outlierCell_idem cfg) t

theorem coerceStage_idem (t : Table) : coerceStage (coerceStage t) = coerceStage t := by
  unfold coerceStage
  rw [mapCells_mapCells]
  exact mapCells_congr _ _ coerceCell_idem t

theorem textStage_idem (t : Table) : textStage (textStage t) = textStage t := by
  unfold textStage
  rw [mapCells_mapCells]
  exact mapCells_congr _ _ textCell_idem t

theorem mapCells_id (f : Cell → Cell) (t : Table)
    (h : ∀ row ∈ t, ∀ c ∈ row, f c = c) : mapCells f t = t := by
  unfold mapCells
  have : ∀ row ∈ t, row.map f = row := by
    intro row hrow
    have : ∀ c ∈ row, f c = c := h row hrow
    calc row.map f = row.map id := List.map_congr_left this
    _ = row := List.map_id row
  calc t.map (fun row => row.map f) = t.map id := List.map_congr_left this
  _ = t := List.map_id t

theorem clampQ_of_mem (lo hi q : ℚ) (hlo : lo ≤ q) (hhi : q ≤ hi) :
    clampQ lo hi q = q := by
  simp only [clampQ, minQ, maxQ]
  split_ifs <;> first | rfl | linarith

theorem fullPipeline_clean_fixed (cfg : AdaptiveConfig) (t : Table) (h : Clean cfg t) :
    fullPipeline cfg t = t := by
  obtain ⟨hnodup, hcells⟩ := h
  have h1 : dedupStage t = t := dedupStage_of_nodup t hnodup
  have h2 : imputeStage cfg t = t := by
    apply mapCells_id
    intro row hrow c hc
    have hcl := hcells row hrow c hc
    cases c with
    | missing => simp [cleanCell] at hcl
    | num q => rfl
    | str s => rfl
  have h3 : outlierStage cfg t = t := by
    apply mapCells_id
    intro row hrow c hc
    have hcl := hcells row hrow c hc
    cases c with
    | missing => rfl
    | num q =>
      simp only [cleanCell, Bool.and_eq_true, decide_eq_true_eq] at hcl
      simp [outlierCell, clampQ_of_mem _ _ _ hcl.1 hcl.2]
    | str s => rfl
  have h4 : coerceStage t = t := by
    apply mapCells_id
    intro row hrow c hc
    have hcl := hcells row hrow c hc
    cases c with
    | missing => rfl
    | num q => rfl
    | str s =>
      simp only [cleanCell, Bool.and_eq_true, decide_eq_true_eq] at hcl
      simp [coerceCell, hcl.1]
  have h5 : textStage t = t := by
    apply mapCells_id
    intro row hrow c hc
    have hcl := hcells row hrow c hc
    cases c with
    | missing => rfl
    | num q => rfl
    | str s =>
      simp only [cleanCell, Bool.and_eq_true, decide_eq_true_eq, beq_iff_eq] at hcl
      simp [textCell, hcl.2]
  unfold fullPipeline
  rw [h1, h2, h3, h4, h5]

/-- C7: running `full_pipeline` twice on an already-clean table yields an
identical table and an equal quality score — in fact one run already leaves a
clean table unchanged — and every single stage is idempotent: a second run of
the same stage produces no further change. -/
theorem c7_idempotence :
    (∀ (cfg : AdaptiveConfig) (t : Table), Clean cfg t →
      fullPipeline cfg t = t ∧
      fullPipeline cfg (fullPipeline cfg t) = fullPipeline cfg t ∧
      qualityScore (fullPipeline cfg t) = qualityScore t) ∧
    (∀ t : Table, dedupStage (dedupStage t) = dedupStage t) ∧
    (∀ (cfg : AdaptiveConfig) (t : Table),
      imputeStage cfg (imputeStage cfg t) = imputeStage cfg t) ∧
    (∀ (cfg : AdaptiveConfig) (t : Table),
      outlierStage cfg (outlierStage cfg t) = outlierStage cfg t) ∧
    (∀ t : Table, coerceStage (coerceStage t) = coerceStage t) ∧
    (∀ t : Table, textStage (textStage t) = textStage t) := by
  refine ⟨?_, dedupStage_idem, imputeStage_idem, outlierStage_idem, coerceStage_idem,
    textStage_idem⟩
  intro cfg t h
  have hfix := fullPipeline_clean_fixed cfg t h
  exact ⟨hfix, by rw [hfix, hfix], by rw [hfix]⟩

/-- Witness for C7 at a concrete input: the full pipeline leaves the clean
table unchanged, twice. -/
theorem c7_idempotence_witness :
    fullPipeline cfg0 cleanTable0 = cleanTable0 ∧
    fullPipeline cfg0 (fullPipeline cfg0 cleanTable0) = fullPipeline cfg0 cleanTable0 := by
  have h := c7_idempotence.1 cfg0 cleanTable0 (by constructor <;> decide)
  exact ⟨h.1, h.2.1⟩

theorem rq_round_mono (x y : ℚ) (h : x ≤ y) : round x ≤ round y := by
  rw [round_eq, round_eq]
  exact Int.floor_le_floor (by linarith)

theorem qualityScore_mem (t : Table) : 0 ≤ qualityScore t ∧ qualityScore t ≤ 1 := by
  unfold qualityScore clampQ minQ maxQ
  split_ifs <;> constructor <;> linarith

/-- C6 fails on the code as stated: the `complete`-event update of a quality
score of 0.85 produces 85, far outside [0,1]. -/
theorem c6_quality_range_counterexample :
    (0 : ℚ) ≤ 17 / 20 ∧ (17 / 20 : ℚ) ≤ 1 ∧
    completeQuality (17 / 20) = 85 ∧ ¬ completeQuality (17 / 20) ≤ 1 := by
  have h1 : ((17 : ℚ) / 20) * 10000 = 8500 := by norm_num
  have h2 : round ((17 : ℚ) / 20 * 10000) = 8500 := by
    rw [h1]
    have h3 : ((8500 : ℤ) : ℚ) = 8500 := by norm_num
    rw [← h3, round_intCast]
  refine ⟨by norm_num, by norm_num, ?_, ?_⟩
  · rw [completeQuality, h2]
    norm_num
  · rw [completeQuality, h2]
    norm_num

/-- C6 amended: the scorer's output and the load-time normalization stay in
[0,1], but the `complete`-event update converts the [0,1] score to a
percentage: it lands in [0,100], not [0,1]. -/
theorem c6_quality_range_amended (q : ℚ) (h0 : 0 ≤ q) (h1 : q ≤ 1) :
    (0 ≤ normalizeQuality q ∧ normalizeQuality q ≤ 1) ∧
    (0 ≤ completeQuality q ∧ completeQuality q ≤ 100) ∧
    (∀ t : Table, 0 ≤ qualityScore t ∧ qualityScore t ≤ 1) := by
  have hr100 : round ((100 : ℚ)) = 100 := by
    have h3 : ((100 : ℤ) : ℚ) = 100 := by norm_num
    rw [← h3, round_intCast]
  have hr10000 : round ((10000 : ℚ)) = 10000 := by
    have h3 : ((10000 : ℤ) : ℚ) = 10000 := by norm_num
    rw [← h3, round_intCast]
  have hn0 : (0 : ℤ) ≤ round (q * 100) := by
    have := rq_round_mono 0 (q * 100) (by nlinarith)
    simpa using this
  have hn1 : round (q * 100) ≤ 100 := by
    have := rq_round_mono (q * 100) 100 (by nlinarith)
    rwa [hr100] at this
  have hc0 : (0 : ℤ) ≤ round (q * 10000) := by
    have := rq_round_mono 0 (q * 10000) (by nlinarith)
    simpa using this
  have hc1 : round (q * 10000) ≤ 10000 := by
    have := rq_round_mono (q * 10000) 10000 (by nlinarith)
    rwa [hr10000] at this
  refine ⟨⟨?_, ?_⟩, ⟨?_, ?_⟩, qualityScore_mem⟩
  · unfold normalizeQuality
    apply div_nonneg _ (by norm_num)
    exact_mod_cast hn0
  · unfold normalizeQuality
    rw [div_le_one (by norm_num)]
    exact_mod_cast hn1
  · unfold completeQuality
    apply div_nonneg _ (by norm_num)
    exact_mod_cast hc0
  · unfold completeQuality
    rw [div_le_iff₀ (by norm_num)]
    have hcast : ((round (q * 10000) : ℤ) : ℚ) ≤ 10000 := by exact_mod_cast hc1
    linarith

/-- Witness for C6 amended at the concrete score one half. -/
theorem c6_quality_range_amended_witness :
    (0 ≤ normalizeQuality (1 / 2) ∧ normalizeQuality (1 / 2) ≤ 1) ∧
    (0 ≤ completeQuality (1 / 2) ∧ completeQuality (1 / 2) ≤ 100) ∧
    (0 ≤ qualityScore cleanTable0 ∧ qualityScore cleanTable0 ≤ 1) := by
  obtain ⟨ha, hb, hc⟩ := c6_quality_range_amended (1 / 2) (by norm_num) (by norm_num)
  exact ⟨ha, hb, hc cleanTable0⟩

/-- C1 as stated fails on the code: on a run whose stream terminates with an
explicit `error` event, if the single fallback call itself throws, the outer
catch block re-runs the synchronous pipeline — two calls, not one. -/
theorem c1_single_fallback_counterexample :
    envErrorFb1Throws.streamThrows = false ∧
    envErrorFb1Throws.events.getLast? = some CliEvent.error ∧
    (clientRun envErrorFb1Throws).1 = 2 :=
  ⟨rfl, rfl, rfl⟩

/-- C1 amended: the fallback state is entered and the synchronous endpoint
called only when the stream call throws or the stream ends without a
`complete` event; when the stream terminates with an explicit `error` event
the client makes that single fallback call and re-runs the pipeline once more
only if the fallback call itself throws — never more than two synchronous
calls in the run. -/
theorem c1_fallback_amended (env : StreamEnv) :
    ((clientRun env).1 ≥ 1 → env.streamThrows = true ∨ hasComplete env.events = false) ∧
    ((clientRun env).2.1 = true → env.streamThrows = true ∨ hasComplete env.events = false) ∧
    (env.streamThrows = false → env.events.getLast? = some CliEvent.error →
      ((clientRun env).1 ≤ 2 ∧ ((clientRun env).1 = 2 → env.fb1Ok = false))) := by
  rcases env with ⟨evs, thr, f1, f2⟩
  unfold clientRun
  cases thr <;> cases f1 <;> cases f2 <;>
    by_cases hc : hasComplete evs = true <;>
    simp_all

/-- Witness for C1 amended at a concrete run: stream ends with `error`, the
fallback call succeeds, and at most two synchronous calls are made. -/
theorem c1_fallback_amended_witness :
    (clientRun envErrorFb1Ok).1 ≤ 2 ∧
    ((clientRun envErrorFb1Ok).1 = 2 → envErrorFb1Ok.fb1Ok = false) :=
  (c1_fallback_amended envErrorFb1Ok).2.2 rfl rfl

end DD
